import Mathlib

/-!
Verification of the bounded LRU cache store `SizedCache` from
`src/src/stores/sized.rs`.

The store couples a hash index (`hashbrown::HashTable<usize>` holding arena
handles) with a recency arena (`crate::lru_list::LRUList<(K, V)>`).  The
`LRUList` source file is not part of the provided sources, so the arena is
modelled from the specification (section 4.1 "Order Arena"): a flat backing
store of slots addressed by stable integer handles, with a free list for
recycled slots, plus a recency list of handles from most- to least-recently
used.  The hash table is modelled as the list of registered handles; `find`
resolves a candidate handle's key through the arena and compares it with the
probed key, so under the hash-table abstraction (every entry is stored under
the hash of its resolved key, and lookups compare resolved keys, making hash
collisions a performance matter only) the lookup returns exactly a handle
whose resolved key equals the probed key.  The per-instance random hash seed
is therefore not observable in the model and is omitted.

Rust panics (`with_size(0)`, stale-handle arena access, and the fatal
"failed evicting cache key" check) are modelled by returning `none` from the
corresponding operation; a fallible value supplier is a function into
`Except`.  The `u64` hit/miss counters are modelled as `Nat`; their wrap
after `2^64` operations is out of scope.
-/

namespace CachedStore

/-- Modelled from the spec: the order arena (`crate::lru_list::LRUList`,
whose source is not under `src/`).  `slots` is the flat backing store — a
`none` slot is free and may be recycled — and `order` is the recency list of
handles, most-recently-used first. -/
structure LRUList (α : Type) where
  slots : List (Option α)
  order : List Nat
deriving DecidableEq

namespace LRUList

variable {α : Type}

/-- Modelled from the spec: the free list of recycled slots, as the first
free (`none`) slot of the backing store, if any. -/
def freeSlot : List (Option α) → Option Nat
  | [] => none
  | none :: _ => some 0
  | some _ :: rest => (freeSlot rest).map (· + 1)

/-- Modelled from the spec: `with_capacity` preallocates backing storage;
preallocation is not observable in the model. -/
def withCapacity (_n : Nat) : LRUList α := ⟨[], []⟩

/-- Modelled from the spec: O(1) slot access through a handle.  A stale or
out-of-range handle yields `none` (the Rust code would panic there). -/
def get (l : LRUList α) (i : Nat) : Option α := l.slots.getD i none

/-- Modelled from the spec: insert as the new most-recently-used slot,
recycling a free slot when one exists, and return the stable handle. -/
def pushFront (l : LRUList α) (a : α) : LRUList α × Nat :=
  match freeSlot l.slots with
  | some i => (⟨l.slots.set i (some a), i :: l.order⟩, i)
  | none => (⟨l.slots ++ [some a], l.slots.length :: l.order⟩, l.slots.length)

/-- Modelled from the spec: replace a slot's content in place, returning the
old content; does not reorder the recency list. -/
def set (l : LRUList α) (i : Nat) (a : α) : LRUList α × Option α :=
  (⟨l.slots.set i (some a), l.order⟩, l.slots.getD i none)

/-- Modelled from the spec: unlink a handle and relink it at the head of the
recency list. -/
def moveToFront (l : LRUList α) (i : Nat) : LRUList α :=
  ⟨l.slots, i :: l.order.erase i⟩

/-- Modelled from the spec: the tail (least-recently-used) handle. -/
def back (l : LRUList α) : Option Nat := l.order.getLast?

/-- Modelled from the spec: unlink a handle and free its slot (the slot
becomes eligible for recycling), returning the removed content. -/
def remove (l : LRUList α) (i : Nat) : LRUList α × Option α :=
  (⟨l.slots.set i none, l.order.erase i⟩, l.slots.getD i none)

/-- Modelled from the spec: the live (key,value) pairs from most- to
least-recently-used. -/
def iter (l : LRUList α) : List α := l.order.filterMap fun i => l.slots.getD i none

/-- Modelled from the spec: drop all slots. -/
def clear (_l : LRUList α) : LRUList α := ⟨[], []⟩

/-- Modelled from the spec: the count of live slots. -/
def length (l : LRUList α) : Nat := l.order.length

end LRUList

/-- The cache store of `sized.rs`: hash index (as the list of registered
arena handles), recency arena, fixed capacity, and hit/miss counters. -/
structure SizedCache (K V : Type) where
  store : List Nat
  order : LRUList (K × V)
  capacity : Nat
  hits : Nat
  misses : Nat
deriving DecidableEq

namespace SizedCache

variable {K V E : Type} [DecidableEq K]

/-- The key resolved through the arena for a handle (the indirection used by
the hash table's compare and rehash closures). -/
def keyAt (c : SizedCache K V) (i : Nat) : Option K := (c.order.get i).map Prod.fst

/-- `get_index`: probe the hash index for the handle whose arena-resolved
key equals `key` (`store.find(hash, |&i| key == order.get(i).0)`). -/
def get_index (c : SizedCache K V) (key : K) : Option Nat :=
  c.store.find? fun i => decide (c.keyAt i = some key)

/-- `insert_index`: register a handle in the hash index (`insert_unique`);
the caller guarantees no live entry exists for the handle's key. -/
def insert_index (c : SizedCache K V) (i : Nat) : SizedCache K V :=
  { c with store := i :: c.store }

/-- `remove_index`: remove and return the handle registered for `key`. -/
def remove_index (c : SizedCache K V) (key : K) : SizedCache K V × Option Nat :=
  match c.get_index key with
  | some i => ({ c with store := c.store.erase i }, some i)
  | none => (c, none)

/-- `check_capacity`: if the live count exceeds the capacity, evict the
arena's tail handle: look its key up in the hash index (panicking — `none` —
when the entry cannot be found), remove that index entry, and remove the
tail slot from the arena. -/
def check_capacity (c : SizedCache K V) : Option (SizedCache K V) :=
  if c.capacity < c.store.length then
    match c.order.back with
    | none => none
    | some index =>
      match c.order.get index with
      | none => none
      | some p =>
        match c.get_index p.1 with
        | none => none
        | some i =>
          some { c with store := c.store.erase i, order := (c.order.remove index).1 }
  else some c

/-- `get_if`: on a present key whose value satisfies the predicate, move the
slot to the front, record a hit and return the value; otherwise record a
miss and return nothing. -/
def get_if (c : SizedCache K V) (key : K) (is_valid : V → Bool) :
    SizedCache K V × Option V :=
  match c.get_index key with
  | some index =>
    match c.order.get index with
    | some p =>
      if is_valid p.2 then
        ({ c with order := c.order.moveToFront index, hits := c.hits + 1 }, some p.2)
      else ({ c with misses := c.misses + 1 }, none)
    | none => ({ c with misses := c.misses + 1 }, none)
  | none => ({ c with misses := c.misses + 1 }, none)

/-- `get_mut_if`: identical to `get_if` except that the Rust code hands out
a mutable borrow; the observable store effect is the same. -/
def get_mut_if (c : SizedCache K V) (key : K) (is_valid : V → Bool) :
    SizedCache K V × Option V :=
  match c.get_index key with
  | some index =>
    match c.order.get index with
    | some p =>
      if is_valid p.2 then
        ({ c with order := c.order.moveToFront index, hits := c.hits + 1 }, some p.2)
      else ({ c with misses := c.misses + 1 }, none)
    | none => ({ c with misses := c.misses + 1 }, none)
  | none => ({ c with misses := c.misses + 1 }, none)

/-- `cache_get`: `get_if` with an always-true predicate. -/
def cache_get (c : SizedCache K V) (key : K) : SizedCache K V × Option V :=
  get_if c key fun _ => true

/-- `cache_get_mut`: `get_mut_if` with an always-true predicate. -/
def cache_get_mut (c : SizedCache K V) (key : K) : SizedCache K V × Option V :=
  get_mut_if c key fun _ => true

/-- `cache_set`: replace in place when the key is present, otherwise push a
new front slot and register its handle; then run the eviction check.
Returns the previous value.  `none` overall models a panic. -/
def cache_set (c : SizedCache K V) (key : K) (val : V) :
    Option (SizedCache K V × Option V) :=
  match c.get_index key with
  | some index =>
    (check_capacity { c with order := (c.order.set index (key, val)).1 }).map
      fun c2 => (c2, ((c.order.set index (key, val)).2).map Prod.snd)
  | none =>
    (check_capacity
        (insert_index { c with order := (c.order.pushFront (key, val)).1 }
          (c.order.pushFront (key, val)).2)).map
      fun c2 => (c2, none)

/-- `get_or_set_with_if`: get the cached value, or set it using `f` when the
key is absent or the stored value fails `is_valid`.  Returns
`(was_present, was_valid, value)`. -/
def get_or_set_with_if (c : SizedCache K V) (key : K) (f : Unit → V)
    (is_valid : V → Bool) : Option (SizedCache K V × Bool × Bool × V) :=
  match c.get_index key with
  | some index =>
    let c1 : SizedCache K V := { c with hits := c.hits + 1 }
    match c1.order.get index with
    | none => none
    | some p =>
      if !is_valid p.2 then
        let c2 : SizedCache K V := { c1 with order := (c1.order.set index (key, f ())).1 }
        let c3 : SizedCache K V := { c2 with order := c2.order.moveToFront index }
        match c3.order.get index with
        | none => none
        | some q => some (c3, true, false, q.2)
      else
        let c3 : SizedCache K V := { c1 with order := c1.order.moveToFront index }
        match c3.order.get index with
        | none => none
        | some q => some (c3, true, true, q.2)
  | none =>
    let c1 : SizedCache K V := { c with misses := c.misses + 1 }
    match check_capacity
        (insert_index { c1 with order := (c1.order.pushFront (key, f ())).1 }
          (c1.order.pushFront (key, f ())).2) with
    | none => none
    | some c3 =>
      match c3.order.get (c1.order.pushFront (key, f ())).2 with
      | none => none
      | some q => some (c3, false, false, q.2)

/-- `try_get_or_set_with_if`: like `get_or_set_with_if` with a fallible
supplier.  The supplier's error aborts the call before any structural
mutation (`?` returns before `order.set` / `push_front` run), but after the
hit or miss counter was bumped; the post-call store is returned alongside
the propagated error. -/
def try_get_or_set_with_if (c : SizedCache K V) (key : K)
    (f : Unit → Except E V) (is_valid : V → Bool) :
    Option (SizedCache K V × Except E (Bool × Bool × V)) :=
  match c.get_index key with
  | some index =>
    let c1 : SizedCache K V := { c with hits := c.hits + 1 }
    match c1.order.get index with
    | none => none
    | some p =>
      if !is_valid p.2 then
        match f () with
        | Except.error e => some (c1, Except.error e)
        | Except.ok v =>
          let c2 : SizedCache K V := { c1 with order := (c1.order.set index (key, v)).1 }
          let c3 : SizedCache K V := { c2 with order := c2.order.moveToFront index }
          match c3.order.get index with
          | none => none
          | some q => some (c3, Except.ok (true, false, q.2))
      else
        let c3 : SizedCache K V := { c1 with order := c1.order.moveToFront index }
        match c3.order.get index with
        | none => none
        | some q => some (c3, Except.ok (true, true, q.2))
  | none =>
    let c1 : SizedCache K V := { c with misses := c.misses + 1 }
    match f () with
    | Except.error e => some (c1, Except.error e)
    | Except.ok v =>
      match check_capacity
          (insert_index { c1 with order := (c1.order.pushFront (key, v)).1 }
            (c1.order.pushFront (key, v)).2) with
      | none => none
      | some c3 =>
        match c3.order.get (c1.order.pushFront (key, v)).2 with
        | none => none
        | some q => some (c3, Except.ok (false, false, q.2))

/-- `try_get_or_set_with_if_async`: the async variant differs from the sync
one only by awaiting the supplier; in the pure embedding the supplier is a
function, so the behaviour coincides. -/
def try_get_or_set_with_if_async (c : SizedCache K V) (key : K)
    (f : Unit → Except E V) (is_valid : V → Bool) :
    Option (SizedCache K V × Except E (Bool × Bool × V)) :=
  try_get_or_set_with_if c key f is_valid

/-- `cache_get_or_set_with`: `get_or_set_with_if` with an always-true
predicate, projecting the value. -/
def cache_get_or_set_with (c : SizedCache K V) (key : K) (f : Unit → V) :
    Option (SizedCache K V × V) :=
  (get_or_set_with_if c key f fun _ => true).map fun x => (x.1, x.2.2.2)

/-- `cache_try_get_or_set_with`: `try_get_or_set_with_if` with an
always-true predicate, projecting the value. -/
def cache_try_get_or_set_with (c : SizedCache K V) (key : K)
    (f : Unit → Except E V) : Option (SizedCache K V × Except E V) :=
  (try_get_or_set_with_if c key f fun _ => true).map
    fun x => (x.1, x.2.map fun t => t.2.2)

/-- `cache_remove`: remove the key from the index, then its slot from the
arena, returning the removed value. -/
def cache_remove (c : SizedCache K V) (key : K) : SizedCache K V × Option V :=
  match remove_index c key with
  | (c1, some index) =>
    ({ c1 with order := (c1.order.remove index).1 },
      ((c1.order.remove index).2).map Prod.snd)
  | (c1, none) => (c1, none)

/-- `cache_clear`: clear both the index and the arena. -/
def cache_clear (c : SizedCache K V) : SizedCache K V :=
  { c with store := [], order := c.order.clear }

/-- `cache_reset`: for a fixed-capacity store, identical to `cache_clear`. -/
def cache_reset (c : SizedCache K V) : SizedCache K V :=
  cache_clear c

/-- `cache_reset_metrics`: zero the counters only. -/
def cache_reset_metrics (c : SizedCache K V) : SizedCache K V :=
  { c with hits := 0, misses := 0 }

/-- `cache_size`: the live-entry count, read off the hash index. -/
def cache_size (c : SizedCache K V) : Nat := c.store.length

/-- `cache_hits`. -/
def cache_hits (c : SizedCache K V) : Option Nat := some c.hits

/-- `cache_misses`. -/
def cache_misses (c : SizedCache K V) : Option Nat := some c.misses

/-- `cache_capacity`. -/
def cache_capacity (c : SizedCache K V) : Option Nat := some c.capacity

/-- `iter_order`: the live (key,value) pairs from MRU to LRU. -/
def iter_order (c : SizedCache K V) : List (K × V) := c.order.iter

/-- `key_order`: keys from most- to least-recently used. -/
def key_order (c : SizedCache K V) : List K := (iter_order c).map Prod.fst

/-- `value_order`: values from most- to least-recently used. -/
def value_order (c : SizedCache K V) : List V := (iter_order c).map Prod.snd

/-- `with_size`: construct with a positive size limit; size 0 panics
(modelled as `none`). -/
def with_size (n : Nat) : Option (SizedCache K V) :=
  if n = 0 then none
  else
    some
      { store := [], order := LRUList.withCapacity n, capacity := n, hits := 0,
        misses := 0 }

/-- `try_with_size`: non-fatal construction; size 0 yields the raw OS error
EINVAL (22).  The allocation-failure branch (ENOMEM, 12) of the Rust code
depends on the allocator and is not representable in the model, which always
succeeds for a positive size. -/
def try_with_size (n : Nat) : Except Nat (SizedCache K V) :=
  if n = 0 then Except.error 22
  else
    Except.ok
      { store := [], order := LRUList.withCapacity n, capacity := n, hits := 0,
        misses := 0 }

/-- The `PartialEq` implementation: equal live counts, and every pair of the
left store is found with an equal value in the right one (resolved through
the right store's index). -/
def cache_eq [DecidableEq V] (a b : SizedCache K V) : Bool :=
  a.store.length == b.store.length &&
    (a.order.iter).all fun p =>
      match b.get_index p.1 with
      | some i =>
        match b.order.get i with
        | some q => p.2 == q.2
        | none => false
      | none => false

/-- Pure key-based observation of the stored value (no counters, no
reordering); used to characterise equality. -/
def lookupVal (c : SizedCache K V) (key : K) : Option V :=
  (c.get_index key).bind fun i => (c.order.get i).map Prod.snd

/-- Structural alignment of index and arena: the index and the recency list
hold the same handles, without duplicates, every listed handle is live, and
no two live handles resolve to the same key. -/
def PreInv (c : SizedCache K V) : Prop :=
  c.store.Nodup ∧ c.order.order.Nodup ∧
    (∀ i ∈ c.store, i ∈ c.order.order) ∧
    (∀ i ∈ c.order.order, i ∈ c.store) ∧
    (∀ i ∈ c.order.order, c.order.get i ≠ none) ∧
    (∀ i ∈ c.order.order, ∀ j ∈ c.order.order, c.keyAt i = c.keyAt j → i = j)

/-- The full store invariant: structural alignment, the capacity bound, and
a positive capacity. -/
def Inv (c : SizedCache K V) : Prop :=
  PreInv c ∧ c.store.length ≤ c.capacity ∧ 0 < c.capacity

instance instDecidablePreInv [DecidableEq V] (c : SizedCache K V) :
    Decidable (PreInv c) := by
  unfold PreInv
  infer_instance

instance instDecidableInv [DecidableEq V] (c : SizedCache K V) :
    Decidable (Inv c) := by
  unfold Inv
  infer_instance

/-- The states reachable from a freshly constructed store by completed
operations (an operation that would panic yields no next state). -/
inductive Reachable : SizedCache K V → Prop where
  | init (n : Nat) (c : SizedCache K V) : with_size n = some c → Reachable c
  | set (c : SizedCache K V) (k : K) (v : V) (out : SizedCache K V × Option V) :
      Reachable c → cache_set c k v = some out → Reachable out.1
  | get (c : SizedCache K V) (k : K) (q : V → Bool) (out : SizedCache K V × Option V) :
      Reachable c → get_if c k q = out → Reachable out.1
  | getMut (c : SizedCache K V) (k : K) (q : V → Bool) (out : SizedCache K V × Option V) :
      Reachable c → get_mut_if c k q = out → Reachable out.1
  | upsert (c : SizedCache K V) (k : K) (f : Unit → V) (q : V → Bool)
      (out : SizedCache K V × Bool × Bool × V) :
      Reachable c → get_or_set_with_if c k f q = some out → Reachable out.1
  | tryUpsert {E : Type} (c : SizedCache K V) (k : K) (f : Unit → Except E V)
      (q : V → Bool) (out : SizedCache K V × Except E (Bool × Bool × V)) :
      Reachable c → try_get_or_set_with_if c k f q = some out → Reachable out.1
  | remove (c : SizedCache K V) (k : K) (out : SizedCache K V × Option V) :
      Reachable c → cache_remove c k = out → Reachable out.1
  | clear (c : SizedCache K V) : Reachable c → Reachable (cache_clear c)
  | resetMetrics (c : SizedCache K V) : Reachable c → Reachable (cache_reset_metrics c)

end SizedCache

/-- Concrete example store: empty, capacity 2. -/
def wc0 : SizedCache Nat Nat := ⟨[], ⟨[], []⟩, 2, 0, 0⟩

/-- Concrete example store: one entry (1 ↦ 10), capacity 2. -/
def wc1 : SizedCache Nat Nat := ⟨[0], ⟨[some (1, 10)], [0]⟩, 2, 0, 0⟩

/-- Concrete example store: full at capacity 2; MRU key 2, LRU key 1. -/
def wc2 : SizedCache Nat Nat := ⟨[1, 0], ⟨[some (1, 10), some (2, 20)], [1, 0]⟩, 2, 0, 0⟩

/-- Concrete example store: two entries, capacity 3; MRU key 2, LRU key 1. -/
def wc4 : SizedCache Nat Nat := ⟨[1, 0], ⟨[some (1, 10), some (2, 20)], [1, 0]⟩, 3, 0, 0⟩

/-- Concrete example store: entries {(1,10), (2,20)}, capacity 5. -/
def wc7a : SizedCache Nat Nat := ⟨[0, 1], ⟨[some (1, 10), some (2, 20)], [0, 1]⟩, 5, 3, 4⟩

/-- Concrete example store: the same entries as `wc7a` in the opposite
recency order, different handles, capacity 7. -/
def wc7b : SizedCache Nat Nat := ⟨[1, 0], ⟨[some (2, 20), some (1, 10)], [1, 0]⟩, 7, 9, 9⟩

end CachedStore

/-! ## Arena lemmas -/

namespace CachedStore

namespace LRUList

variable {α : Type}

theorem freeSlot_spec {s : List (Option α)} {i : Nat} (h : freeSlot s = some i) :
    i < s.length ∧ s.getD i none = none := by
  induction s generalizing i with
  | nil => simp [freeSlot] at h
  | cons a rest ih =>
    cases a with
    | none =>
      simp [freeSlot] at h
      subst h
      simp
    | some b =>
      simp [freeSlot] at h
      obtain ⟨j, hj, rfl⟩ := h
      obtain ⟨h1, h2⟩ := ih hj
      refine ⟨?_, by simpa using h2⟩
      simp only [List.length_cons]
      omega

theorem pushFront_order (l : LRUList α) (a : α) :
    (l.pushFront a).1.order = (l.pushFront a).2 :: l.order := by
  unfold pushFront
  cases hfs : freeSlot l.slots <;> simp

theorem pushFront_get_self (l : LRUList α) (a : α) :
    (l.pushFront a).1.get (l.pushFront a).2 = some a := by
  unfold pushFront
  cases hfs : freeSlot l.slots with
  | none =>
    simp [get, List.getD_eq_getElem?_getD, List.getElem?_concat_length]
  | some i =>
    obtain ⟨hlt, _⟩ := freeSlot_spec hfs
    simp [get, List.getD_eq_getElem?_getD, List.getElem?_set_self hlt]

theorem pushFront_get_ne (l : LRUList α) (a : α) {j : Nat}
    (hj : j ≠ (l.pushFront a).2) : (l.pushFront a).1.get j = l.get j := by
  unfold pushFront at hj ⊢
  cases hfs : freeSlot l.slots with
  | none =>
    simp only [hfs] at hj ⊢
    rcases Nat.lt_or_ge j l.slots.length with hlt | hge
    · simp [get, List.getD_eq_getElem?_getD, List.getElem?_append, hlt]
    · have hgt : l.slots.length < j := lt_of_le_of_ne hge (by simpa using (Ne.symm hj))
      have h1 : (l.slots ++ [some a])[j]? = none := by
        apply List.getElem?_eq_none
        simp
        omega
      have h2 : l.slots[j]? = none := List.getElem?_eq_none (by omega)
      simp [get, List.getD_eq_getElem?_getD, h1, h2]
  | some i =>
    simp only [hfs] at hj ⊢
    simp [get, List.getD_eq_getElem?_getD, List.getElem?_set_ne (Ne.symm hj)]

theorem pushFront_fresh (l : LRUList α) (a : α) :
    l.get (l.pushFront a).2 = none := by
  unfold pushFront
  cases hfs : freeSlot l.slots with
  | none => simp [get, List.getD_eq_getElem?_getD, List.getElem?_eq_none (le_refl _)]
  | some i => exact (freeSlot_spec hfs).2

theorem set_order (l : LRUList α) (i : Nat) (a : α) :
    (l.set i a).1.order = l.order := rfl

theorem set_get_self {l : LRUList α} {i : Nat} (h : l.get i ≠ none) (a : α) :
    (l.set i a).1.get i = some a := by
  have hlt : i < l.slots.length := by
    by_contra hge
    exact h (by simp [get, List.getD_eq_getElem?_getD,
      List.getElem?_eq_none (Nat.le_of_not_lt hge)])
  simp [set, get, List.getD_eq_getElem?_getD, List.getElem?_set_self hlt]

theorem set_get_ne (l : LRUList α) {i j : Nat} (h : j ≠ i) (a : α) :
    (l.set i a).1.get j = l.get j := by
  simp [set, get, List.getD_eq_getElem?_getD, List.getElem?_set_ne (Ne.symm h)]

theorem set_snd (l : LRUList α) (i : Nat) (a : α) :
    (l.set i a).2 = l.get i := rfl

theorem moveToFront_get (l : LRUList α) (i j : Nat) :
    (l.moveToFront i).get j = l.get j := rfl

theorem moveToFront_order (l : LRUList α) (i : Nat) :
    (l.moveToFront i).order = i :: l.order.erase i := rfl

theorem moveToFront_mem {l : LRUList α} {i : Nat} (hi : i ∈ l.order) (x : Nat) :
    x ∈ (l.moveToFront i).order ↔ x ∈ l.order := by
  simp only [moveToFront_order, List.mem_cons]
  constructor
  · rintro (rfl | hx)
    · exact hi
    · exact List.mem_of_mem_erase hx
  · intro hx
    rcases eq_or_ne x i with rfl | hne
    · exact Or.inl rfl
    · exact Or.inr ((List.mem_erase_of_ne hne).mpr hx)

theorem moveToFront_nodup {l : LRUList α} {i : Nat} (h : l.order.Nodup) :
    (l.moveToFront i).order.Nodup := by
  simp only [moveToFront_order]
  refine List.nodup_cons.mpr ⟨?_, h.erase i⟩
  intro hmem
  have hne : i ≠ i := ((List.Nodup.mem_erase_iff h).mp hmem).1
  exact hne rfl

theorem moveToFront_length {l : LRUList α} {i : Nat} (hi : i ∈ l.order) :
    (l.moveToFront i).order.length = l.order.length := by
  have hpos : 0 < l.order.length := List.length_pos_of_mem hi
  simp only [moveToFront_order, List.length_cons, List.length_erase_of_mem hi]
  omega

theorem remove_order (l : LRUList α) (i : Nat) :
    (l.remove i).1.order = l.order.erase i := rfl

theorem remove_get_self (l : LRUList α) (i : Nat) :
    (l.remove i).1.get i = none := by
  rcases Nat.lt_or_ge i l.slots.length with hlt | hge
  · simp [remove, get, List.getD_eq_getElem?_getD, List.getElem?_set_self hlt]
  · have hnone : (l.slots.set i none)[i]? = none :=
      List.getElem?_eq_none (by simpa using hge)
    simp [remove, get, List.getD_eq_getElem?_getD, hnone]

theorem remove_get_ne (l : LRUList α) {i j : Nat} (h : j ≠ i) :
    (l.remove i).1.get j = l.get j := by
  simp [remove, get, List.getD_eq_getElem?_getD, List.getElem?_set_ne (Ne.symm h)]

theorem iter_eq (l : LRUList α) : l.iter = l.order.filterMap fun i => l.get i := rfl

end LRUList

end CachedStore

/-! ## Index and invariant lemmas -/

namespace CachedStore

theorem LRUList.back_mem {α : Type} {l : LRUList α} {t : Nat}
    (h : l.back = some t) : t ∈ l.order := by
  unfold LRUList.back at h
  have hne : l.order ≠ [] := by
    intro h0
    rw [h0] at h
    simp at h
  rw [List.getLast?_eq_getLast _ hne] at h
  have hmem := List.getLast_mem hne
  rwa [Option.some_inj.mp h] at hmem

theorem LRUList.getLast?_cons_of_ne_nil {a : Nat} {l : List Nat} (h : l ≠ []) :
    (a :: l).getLast? = l.getLast? := by
  cases l with
  | nil => exact absurd rfl h
  | cons x xs => exact List.getLast?_cons_cons

namespace SizedCache

variable {K V E : Type} [DecidableEq K]

theorem get_index_spec {c : SizedCache K V} {k : K} {i : Nat}
    (h : c.get_index k = some i) : i ∈ c.store ∧ c.keyAt i = some k := by
  unfold get_index at h
  have h1 := List.mem_of_find?_eq_some h
  have h2 := List.find?_some h
  simp only [decide_eq_true_eq] at h2
  exact ⟨h1, h2⟩

theorem get_index_live {c : SizedCache K V} {k : K} {i : Nat}
    (h : c.get_index k = some i) : ∃ v, c.order.get i = some (k, v) := by
  have hk := (get_index_spec h).2
  unfold keyAt at hk
  cases hg : c.order.get i with
  | none => rw [hg] at hk; simp at hk
  | some p =>
    obtain ⟨p1, p2⟩ := p
    rw [hg] at hk
    simp at hk
    subst hk
    exact ⟨p2, rfl⟩

theorem get_index_none_spec {c : SizedCache K V} {k : K}
    (h : c.get_index k = none) : ∀ i ∈ c.store, c.keyAt i ≠ some k := by
  unfold get_index at h
  intro i hi
  have := List.find?_eq_none.mp h i hi
  simpa using this

theorem get_index_of_mem {c : SizedCache K V} {k : K} {i : Nat}
    (hi : i ∈ c.store) (hk : c.keyAt i = some k) :
    ∃ j, c.get_index k = some j := by
  have hsome : (c.store.find? fun j => decide (c.keyAt j = some k)).isSome := by
    rw [List.find?_isSome]
    exact ⟨i, hi, by simpa using hk⟩
  obtain ⟨j, hj⟩ := Option.isSome_iff_exists.mp hsome
  exact ⟨j, hj⟩

theorem keyAt_congr {c c' : SizedCache K V} (ho : c'.order = c.order) (i : Nat) :
    c'.keyAt i = c.keyAt i := by
  unfold keyAt LRUList.get
  rw [ho]

theorem preInv_congr {c c' : SizedCache K V} (hs : c'.store = c.store)
    (ho : c'.order = c.order) (h : PreInv c) : PreInv c' := by
  unfold PreInv at h ⊢
  simp only [keyAt, LRUList.get] at h ⊢
  rw [hs, ho]
  exact h

theorem inv_congr {c c' : SizedCache K V} (hs : c'.store = c.store)
    (ho : c'.order = c.order) (hc : c'.capacity = c.capacity) (h : Inv c) : Inv c' := by
  obtain ⟨hp, hle, hpos⟩ := h
  refine ⟨preInv_congr hs ho hp, ?_, ?_⟩
  · rw [hs, hc]; exact hle
  · rw [hc]; exact hpos

theorem store_length_eq_order {c : SizedCache K V} (h : PreInv c) :
    c.store.length = c.order.order.length := by
  obtain ⟨hsn, hon, hso, hos, _, _⟩ := h
  exact List.Perm.length_eq ((List.perm_ext_iff_of_nodup hsn hon).mpr
    fun a => ⟨fun ha => hso a ha, fun ha => hos a ha⟩)

theorem check_capacity_noop {c : SizedCache K V} (h : c.store.length ≤ c.capacity) :
    check_capacity c = some c := by
  unfold check_capacity
  rw [if_neg (not_lt.mpr h)]

theorem check_capacity_evict {c : SizedCache K V} (h : PreInv c)
    (hover : c.capacity < c.store.length) :
    ∃ t p, c.order.back = some t ∧ t ∈ c.order.order ∧ c.order.get t = some p ∧
      c.get_index p.1 = some t ∧
      check_capacity c =
        some { c with store := c.store.erase t, order := (c.order.remove t).1 } := by
  have hlen : c.store.length = c.order.order.length := store_length_eq_order h
  obtain ⟨hsn, hon, hso, hos, hlive, hinj⟩ := h
  have hne : c.order.order ≠ [] := by
    intro h0
    rw [h0] at hlen
    simp only [List.length_nil] at hlen
    omega
  have hback : c.order.back = some (c.order.order.getLast hne) :=
    List.getLast?_eq_getLast _ hne
  have htmem : c.order.order.getLast hne ∈ c.order.order := List.getLast_mem hne
  cases hg : c.order.get (c.order.order.getLast hne) with
  | none => exact absurd hg (hlive _ htmem)
  | some p =>
    have hkt : c.keyAt (c.order.order.getLast hne) = some p.1 := by
      unfold keyAt
      rw [hg]
      rfl
    obtain ⟨j, hj⟩ := get_index_of_mem (hos _ htmem) hkt
    have hjk := (get_index_spec hj).2
    have hjmem := (get_index_spec hj).1
    have hjt : j = c.order.order.getLast hne :=
      hinj j (hso j hjmem) _ htmem (by rw [hjk, hkt])
    rw [hjt] at hj
    refine ⟨c.order.order.getLast hne, p, hback, htmem, hg, hj, ?_⟩
    unfold check_capacity
    rw [if_pos hover]
    simp only [hback, hg, hj]

theorem preInv_evict {c : SizedCache K V} (h : PreInv c) {t : Nat}
    (ht : t ∈ c.order.order) :
    PreInv { c with store := c.store.erase t, order := (c.order.remove t).1 } := by
  obtain ⟨hsn, hon, hso, hos, hlive, hinj⟩ := h
  have horder : ({ c with
      store := c.store.erase t,
      order := (c.order.remove t).1 } : SizedCache K V).order.order =
      c.order.order.erase t := rfl
  refine ⟨hsn.erase t, ?_, ?_, ?_, ?_, ?_⟩
  · rw [horder]; exact hon.erase t
  · intro i hi
    obtain ⟨hit, his⟩ := (hsn.mem_erase_iff).mp hi
    rw [horder]
    exact (List.mem_erase_of_ne hit).mpr (hso i his)
  · intro i hi
    rw [horder] at hi
    obtain ⟨hit, hio⟩ := (hon.mem_erase_iff).mp hi
    exact (List.mem_erase_of_ne hit).mpr (hos i hio)
  · intro i hi
    rw [horder] at hi
    obtain ⟨hit, hio⟩ := (hon.mem_erase_iff).mp hi
    have : (c.order.remove t).1.get i = c.order.get i := LRUList.remove_get_ne _ hit
    show (c.order.remove t).1.get i ≠ none
    rw [this]
    exact hlive i hio
  · intro i hi j hj
    rw [horder] at hi hj
    obtain ⟨hit, hio⟩ := (hon.mem_erase_iff).mp hi
    obtain ⟨hjt, hjo⟩ := (hon.mem_erase_iff).mp hj
    have hki : ({ c with
        store := c.store.erase t,
        order := (c.order.remove t).1 } : SizedCache K V).keyAt i = c.keyAt i := by
      unfold keyAt
      show ((c.order.remove t).1.get i).map Prod.fst = _
      rw [LRUList.remove_get_ne _ hit]
    have hkj : ({ c with
        store := c.store.erase t,
        order := (c.order.remove t).1 } : SizedCache K V).keyAt j = c.keyAt j := by
      unfold keyAt
      show ((c.order.remove t).1.get j).map Prod.fst = _
      rw [LRUList.remove_get_ne _ hjt]
    rw [hki, hkj]
    exact hinj i hio j hjo

end SizedCache

end CachedStore

/-! ## Operation-level lemmas -/

namespace CachedStore

namespace SizedCache

variable {K V E : Type} [DecidableEq K]

theorem preInv_moveToFront {c : SizedCache K V} (hP : PreInv c) {i : Nat}
    (hi : i ∈ c.order.order) : PreInv { c with order := c.order.moveToFront i } := by
  obtain ⟨hsn, hon, hso, hos, hlive, hinj⟩ := hP
  have hmem := LRUList.moveToFront_mem (l := c.order) hi
  refine ⟨hsn, LRUList.moveToFront_nodup hon, ?_, ?_, ?_, ?_⟩
  · intro j hj
    exact (hmem j).mpr (hso j hj)
  · intro j hj
    exact hos j ((hmem j).mp hj)
  · intro j hj
    exact hlive j ((hmem j).mp hj)
  · intro a ha b hb hk
    exact hinj a ((hmem a).mp ha) b ((hmem b).mp hb) hk

theorem inv_moveToFront {c : SizedCache K V} (hInv : Inv c) {i : Nat}
    (hi : i ∈ c.order.order) : Inv { c with order := c.order.moveToFront i } :=
  ⟨preInv_moveToFront hInv.1 hi, hInv.2.1, hInv.2.2⟩

theorem keyAt_set_samekey {c : SizedCache K V} {i : Nat} {k : K} {ov : V}
    (hg : c.order.get i = some (k, ov)) (v : V) (j : Nat) :
    ({ c with order := (c.order.set i (k, v)).1 } : SizedCache K V).keyAt j =
      c.keyAt j := by
  rcases eq_or_ne j i with rfl | hne
  · unfold keyAt
    show (((c.order.set j (k, v)).1).get j).map Prod.fst = (c.order.get j).map Prod.fst
    rw [LRUList.set_get_self (by simp [hg]) (k, v), hg]
    rfl
  · unfold keyAt
    show (((c.order.set i (k, v)).1).get j).map Prod.fst = (c.order.get j).map Prod.fst
    rw [LRUList.set_get_ne _ hne]

theorem preInv_set_samekey {c : SizedCache K V} {i : Nat} {k : K} {ov : V}
    (hP : PreInv c) (hg : c.order.get i = some (k, ov)) (v : V) :
    PreInv { c with order := (c.order.set i (k, v)).1 } := by
  obtain ⟨hsn, hon, hso, hos, hlive, hinj⟩ := hP
  refine ⟨hsn, hon, hso, hos, ?_, ?_⟩
  · intro j hj
    show ((c.order.set i (k, v)).1).get j ≠ none
    rcases eq_or_ne j i with rfl | hne
    · rw [LRUList.set_get_self (by simp [hg]) (k, v)]
      simp
    · rw [LRUList.set_get_ne _ hne]
      exact hlive j hj
  · intro a ha b hb hk
    rw [keyAt_set_samekey hg v a, keyAt_set_samekey hg v b] at hk
    exact hinj a ha b hb hk

theorem inv_set_samekey {c : SizedCache K V} {i : Nat} {k : K} {ov : V}
    (hInv : Inv c) (hg : c.order.get i = some (k, ov)) (v : V) :
    Inv { c with order := (c.order.set i (k, v)).1 } :=
  ⟨preInv_set_samekey hInv.1 hg v, hInv.2.1, hInv.2.2⟩

theorem push_register_preInv {c : SizedCache K V} {k : K} (hP : PreInv c)
    (habs : c.get_index k = none) (v : V) :
    PreInv (insert_index { c with order := (c.order.pushFront (k, v)).1 }
      (c.order.pushFront (k, v)).2) := by
  obtain ⟨hsn, hon, hso, hos, hlive, hinj⟩ := hP
  have hfresh : c.order.get (c.order.pushFront (k, v)).2 = none :=
    LRUList.pushFront_fresh c.order (k, v)
  have hnotmem : (c.order.pushFront (k, v)).2 ∉ c.order.order := by
    intro hmem
    exact hlive _ hmem hfresh
  have hnotstore : (c.order.pushFront (k, v)).2 ∉ c.store := fun hs => hnotmem (hso _ hs)
  have horder2 : (insert_index { c with order := (c.order.pushFront (k, v)).1 }
      (c.order.pushFront (k, v)).2).order.order =
      (c.order.pushFront (k, v)).2 :: c.order.order := by
    show ((c.order.pushFront (k, v)).1).order = _
    exact LRUList.pushFront_order c.order (k, v)
  have hkfresh : (insert_index { c with order := (c.order.pushFront (k, v)).1 }
      (c.order.pushFront (k, v)).2).keyAt (c.order.pushFront (k, v)).2 = some k := by
    unfold keyAt
    show (((c.order.pushFront (k, v)).1).get (c.order.pushFront (k, v)).2).map Prod.fst = _
    rw [LRUList.pushFront_get_self]
    rfl
  have hkold : ∀ j, j ≠ (c.order.pushFront (k, v)).2 →
      (insert_index { c with order := (c.order.pushFront (k, v)).1 }
        (c.order.pushFront (k, v)).2).keyAt j = c.keyAt j := by
    intro j hj
    unfold keyAt
    show (((c.order.pushFront (k, v)).1).get j).map Prod.fst = _
    rw [LRUList.pushFront_get_ne _ _ hj]
  refine ⟨List.nodup_cons.mpr ⟨hnotstore, hsn⟩, ?_, ?_, ?_, ?_, ?_⟩
  · rw [horder2]
    exact List.nodup_cons.mpr ⟨hnotmem, hon⟩
  · intro j hj
    rw [horder2]
    rcases List.mem_cons.mp hj with rfl | hj'
    · exact List.mem_cons_self _ _
    · exact List.mem_cons_of_mem _ (hso j hj')
  · intro j hj
    rw [horder2] at hj
    rcases List.mem_cons.mp hj with rfl | hj'
    · exact List.mem_cons_self _ _
    · exact List.mem_cons_of_mem _ (hos j hj')
  · intro j hj
    rw [horder2] at hj
    show ((c.order.pushFront (k, v)).1).get j ≠ none
    rcases List.mem_cons.mp hj with rfl | hj'
    · rw [LRUList.pushFront_get_self]
      simp
    · have hne : j ≠ (c.order.pushFront (k, v)).2 := by
        intro h0
        rw [h0] at hj'
        exact hnotmem hj'
      rw [LRUList.pushFront_get_ne _ _ hne]
      exact hlive j hj'
  · intro a ha b hb hk
    rw [horder2] at ha hb
    rcases List.mem_cons.mp ha with rfl | ha' <;> rcases List.mem_cons.mp hb with hb0 | hb'
    · exact hb0.symm
    · have hbne : b ≠ (c.order.pushFront (k, v)).2 := by
        intro h0
        rw [h0] at hb'
        exact hnotmem hb'
      rw [hkfresh, hkold b hbne] at hk
      exact absurd hk.symm (get_index_none_spec habs b (hos b hb'))
    · have hane : a ≠ (c.order.pushFront (k, v)).2 := by
        intro h0
        rw [h0] at ha'
        exact hnotmem ha'
      rw [hb0] at hk
      rw [hkfresh, hkold a hane] at hk
      exact absurd hk (get_index_none_spec habs a (hos a ha'))
    · have hane : a ≠ (c.order.pushFront (k, v)).2 := by
        intro h0
        rw [h0] at ha'
        exact hnotmem ha'
      have hbne : b ≠ (c.order.pushFront (k, v)).2 := by
        intro h0
        rw [h0] at hb'
        exact hnotmem hb'
      rw [hkold a hane, hkold b hbne] at hk
      exact hinj a ha' b hb' hk

end SizedCache

end CachedStore

namespace CachedStore

namespace SizedCache

variable {K V E : Type} [DecidableEq K]

theorem insert_check_spec {c : SizedCache K V} {k : K} {v : V} (hInv : Inv c)
    (habs : c.get_index k = none) :
    ∃ c3, check_capacity (insert_index { c with order := (c.order.pushFront (k, v)).1 }
        (c.order.pushFront (k, v)).2) = some c3 ∧ Inv c3 ∧
      c3.capacity = c.capacity ∧ c3.hits = c.hits ∧ c3.misses = c.misses ∧
      c3.order.get (c.order.pushFront (k, v)).2 = some (k, v) ∧
      (∃ rest, c3.order.order = (c.order.pushFront (k, v)).2 :: rest) ∧
      c3.store.length = min (c.store.length + 1) c.capacity ∧
      (c.store.length < c.capacity →
        c3 = insert_index { c with order := (c.order.pushFront (k, v)).1 }
          (c.order.pushFront (k, v)).2) ∧
      (c.store.length = c.capacity →
        ∃ t p, c.order.back = some t ∧ c.order.get t = some p ∧ t ∈ c.order.order ∧
          c3.store = (c.order.pushFront (k, v)).2 :: c.store.erase t ∧
          c3.order.order = (c.order.pushFront (k, v)).2 :: c.order.order.erase t ∧
          c3.order.get t = none ∧
          (∀ j, j ≠ t → j ≠ (c.order.pushFront (k, v)).2 →
            c3.order.get j = c.order.get j)) := by
  have hP2 := push_register_preInv hInv.1 habs v
  have hlen2 : (insert_index { c with order := (c.order.pushFront (k, v)).1 }
      (c.order.pushFront (k, v)).2).store.length = c.store.length + 1 := rfl
  have hfresh : c.order.get (c.order.pushFront (k, v)).2 = none :=
    LRUList.pushFront_fresh c.order (k, v)
  have hnotmem : (c.order.pushFront (k, v)).2 ∉ c.order.order := by
    intro hmem
    exact hInv.1.2.2.2.2.1 _ hmem hfresh
  rcases lt_or_eq_of_le hInv.2.1 with hlt | heq
  · have hch : check_capacity (insert_index { c with
        order := (c.order.pushFront (k, v)).1 } (c.order.pushFront (k, v)).2) =
        some (insert_index { c with order := (c.order.pushFront (k, v)).1 }
          (c.order.pushFront (k, v)).2) := by
      apply check_capacity_noop
      rw [hlen2]
      show c.store.length + 1 ≤ c.capacity
      omega
    refine ⟨_, hch, ⟨hP2, ?_, hInv.2.2⟩, rfl, rfl, rfl, ?_, ?_, ?_, fun _ => rfl, ?_⟩
    · rw [hlen2]
      show c.store.length + 1 ≤ c.capacity
      omega
    · exact LRUList.pushFront_get_self c.order (k, v)
    · exact ⟨c.order.order, LRUList.pushFront_order c.order (k, v)⟩
    · rw [hlen2]
      omega
    · intro h0
      omega
  · -- the store is full: the insert overflows and the old tail is evicted
    have hover : (insert_index { c with order := (c.order.pushFront (k, v)).1 }
        (c.order.pushFront (k, v)).2).capacity <
        (insert_index { c with order := (c.order.pushFront (k, v)).1 }
          (c.order.pushFront (k, v)).2).store.length := by
      rw [hlen2]
      show c.capacity < c.store.length + 1
      omega
    obtain ⟨t, p, hback2, htmem2, hget2, hgidx2, hch⟩ := check_capacity_evict hP2 hover
    have hONE : c.order.order ≠ [] := by
      have hlenoo := store_length_eq_order hInv.1
      intro h0
      rw [h0] at hlenoo
      simp only [List.length_nil] at hlenoo
      have := hInv.2.2
      omega
    have hbackc : c.order.back = some t := by
      have hb2 : (insert_index { c with order := (c.order.pushFront (k, v)).1 }
          (c.order.pushFront (k, v)).2).order.back = c.order.back := by
        show ((c.order.pushFront (k, v)).1).back = c.order.back
        unfold LRUList.back
        rw [LRUList.pushFront_order]
        exact LRUList.getLast?_cons_of_ne_nil hONE
      rw [← hb2]
      exact hback2
    have htmemc : t ∈ c.order.order := LRUList.back_mem hbackc
    have htne : t ≠ (c.order.pushFront (k, v)).2 := by
      intro h0
      rw [h0] at htmemc
      exact hnotmem htmemc
    have hgetc : c.order.get t = some p := by
      have : (insert_index { c with order := (c.order.pushFront (k, v)).1 }
          (c.order.pushFront (k, v)).2).order.get t = c.order.get t := by
        show ((c.order.pushFront (k, v)).1).get t = c.order.get t
        exact LRUList.pushFront_get_ne _ _ htne
      rw [← this]
      exact hget2
    have htstore : t ∈ c.store := hInv.1.2.2.2.1 t htmemc
    have hsteq : ((c.order.pushFront (k, v)).2 :: c.store).erase t =
        (c.order.pushFront (k, v)).2 :: c.store.erase t :=
      List.erase_cons_tail (by simpa using Ne.symm htne)
    have hoeq : ((c.order.pushFront (k, v)).2 :: c.order.order).erase t =
        (c.order.pushFront (k, v)).2 :: c.order.order.erase t :=
      List.erase_cons_tail (by simpa using Ne.symm htne)
    have horder2 : (insert_index { c with order := (c.order.pushFront (k, v)).1 }
        (c.order.pushFront (k, v)).2).order.order =
        (c.order.pushFront (k, v)).2 :: c.order.order := by
      show ((c.order.pushFront (k, v)).1).order = _
      exact LRUList.pushFront_order c.order (k, v)
    have hP3 := preInv_evict hP2 htmem2
    have hstore3 : ((insert_index { c with order := (c.order.pushFront (k, v)).1 }
        (c.order.pushFront (k, v)).2).store.erase t) =
        (c.order.pushFront (k, v)).2 :: c.store.erase t := by
      show (((c.order.pushFront (k, v)).2 :: c.store).erase t) = _
      exact hsteq
    have hlen3 : ((insert_index { c with order := (c.order.pushFront (k, v)).1 }
        (c.order.pushFront (k, v)).2).store.erase t).length = c.store.length := by
      rw [hstore3]
      simp only [List.length_cons, List.length_erase_of_mem htstore]
      have := List.length_pos_of_mem htstore
      omega
    refine ⟨_, hch, ⟨hP3, ?_, hInv.2.2⟩, rfl, rfl, rfl, ?_, ?_, ?_, ?_, ?_⟩
    · show ((insert_index { c with order := (c.order.pushFront (k, v)).1 }
        (c.order.pushFront (k, v)).2).store.erase t).length ≤ c.capacity
      rw [hlen3]
      omega
    · show ((insert_index { c with order := (c.order.pushFront (k, v)).1 }
          (c.order.pushFront (k, v)).2).order.remove t).1.get
          (c.order.pushFront (k, v)).2 = some (k, v)
      rw [LRUList.remove_get_ne _ (Ne.symm htne)]
      exact LRUList.pushFront_get_self c.order (k, v)
    · refine ⟨c.order.order.erase t, ?_⟩
      show ((insert_index { c with order := (c.order.pushFront (k, v)).1 }
          (c.order.pushFront (k, v)).2).order.remove t).1.order = _
      rw [LRUList.remove_order, horder2]
      exact hoeq
    · show ((insert_index { c with order := (c.order.pushFront (k, v)).1 }
        (c.order.pushFront (k, v)).2).store.erase t).length =
        min (c.store.length + 1) c.capacity
      rw [hlen3]
      omega
    · intro h0
      omega
    · intro _
      refine ⟨t, p, hbackc, hgetc, htmemc, hstore3, ?_, ?_, ?_⟩
      · show ((insert_index { c with order := (c.order.pushFront (k, v)).1 }
            (c.order.pushFront (k, v)).2).order.remove t).1.order = _
        rw [LRUList.remove_order, horder2]
        exact hoeq
      · show ((insert_index { c with order := (c.order.pushFront (k, v)).1 }
            (c.order.pushFront (k, v)).2).order.remove t).1.get t = none
        exact LRUList.remove_get_self _ t
      · intro j hjt hjf
        show ((insert_index { c with order := (c.order.pushFront (k, v)).1 }
            (c.order.pushFront (k, v)).2).order.remove t).1.get j = c.order.get j
        rw [LRUList.remove_get_ne _ hjt]
        show ((c.order.pushFront (k, v)).1).get j = c.order.get j
        exact LRUList.pushFront_get_ne _ _ hjf

end SizedCache

end CachedStore

namespace CachedStore

namespace SizedCache

variable {K V E : Type} [DecidableEq K]

theorem get_mut_if_eq_get_if (c : SizedCache K V) (k : K) (q : V → Bool) :
    get_mut_if c k q = get_if c k q := rfl

theorem get_if_hit {c : SizedCache K V} {k : K} {i : Nat} {q : V → Bool} {v : V}
    (hidx : c.get_index k = some i) (hg : c.order.get i = some (k, v))
    (hq : q v = true) :
    get_if c k q =
      ({ c with order := c.order.moveToFront i, hits := c.hits + 1 }, some v) := by
  simp [get_if, hidx, hg, hq]

theorem get_if_invalid {c : SizedCache K V} {k : K} {i : Nat} {q : V → Bool} {v : V}
    (hidx : c.get_index k = some i) (hg : c.order.get i = some (k, v))
    (hq : q v = false) :
    get_if c k q = ({ c with misses := c.misses + 1 }, none) := by
  simp [get_if, hidx, hg, hq]

theorem get_if_absent {c : SizedCache K V} {k : K} {q : V → Bool}
    (habs : c.get_index k = none) :
    get_if c k q = ({ c with misses := c.misses + 1 }, none) := by
  simp [get_if, habs]

theorem upsert_hit_valid {c : SizedCache K V} {k : K} {i : Nat} {f : Unit → V}
    {q : V → Bool} {v : V} (hidx : c.get_index k = some i)
    (hg : c.order.get i = some (k, v)) (hq : q v = true) :
    get_or_set_with_if c k f q =
      some ({ c with order := c.order.moveToFront i, hits := c.hits + 1 },
        true, true, v) := by
  simp [get_or_set_with_if, hidx, hg, hq, LRUList.moveToFront_get]

theorem upsert_hit_invalid {c : SizedCache K V} {k : K} {i : Nat} {f : Unit → V}
    {q : V → Bool} {v : V} (hidx : c.get_index k = some i)
    (hg : c.order.get i = some (k, v)) (hq : q v = false) :
    get_or_set_with_if c k f q =
      some ({ c with
        order := ((c.order.set i (k, f ())).1).moveToFront i,
        hits := c.hits + 1 }, true, false, f ()) := by
  have hset : ((c.order.set i (k, f ())).1).get i = some (k, f ()) :=
    LRUList.set_get_self (by simp [hg]) _
  simp [get_or_set_with_if, hidx, hg, hq, LRUList.moveToFront_get, hset]

theorem upsert_miss {c : SizedCache K V} {k : K} {f : Unit → V} {q : V → Bool}
    {c3 : SizedCache K V} {p : K × V}
    (habs : c.get_index k = none)
    (hchk : check_capacity (insert_index { c with
        misses := c.misses + 1,
        order := (c.order.pushFront (k, f ())).1 } (c.order.pushFront (k, f ())).2) =
      some c3)
    (hp : c3.order.get (c.order.pushFront (k, f ())).2 = some p) :
    get_or_set_with_if c k f q = some (c3, false, false, p.2) := by
  simp [get_or_set_with_if, habs, hchk, hp]

theorem try_error_absent {c : SizedCache K V} {k : K} {f : Unit → Except E V}
    {q : V → Bool} {e : E} (habs : c.get_index k = none)
    (hf : f () = Except.error e) :
    try_get_or_set_with_if c k f q =
      some ({ c with misses := c.misses + 1 }, Except.error e) := by
  simp [try_get_or_set_with_if, habs, hf]

theorem try_error_present_invalid {c : SizedCache K V} {k : K} {i : Nat}
    {f : Unit → Except E V} {q : V → Bool} {v : V} {e : E}
    (hidx : c.get_index k = some i) (hg : c.order.get i = some (k, v))
    (hq : q v = false) (hf : f () = Except.error e) :
    try_get_or_set_with_if c k f q =
      some ({ c with hits := c.hits + 1 }, Except.error e) := by
  simp [try_get_or_set_with_if, hidx, hg, hq, hf]

theorem try_ok_eq {c : SizedCache K V} {k : K} {f : Unit → Except E V} {v : V}
    {q : V → Bool} (hf : f () = Except.ok v) :
    try_get_or_set_with_if c k f q =
      (get_or_set_with_if c k (fun _ => v) q).map fun x =>
        (x.1, Except.ok x.2) := by
  unfold try_get_or_set_with_if get_or_set_with_if
  cases hidx : c.get_index k with
  | none =>
    simp only [hf]
    cases hchk : check_capacity (insert_index { c with
        misses := c.misses + 1,
        order := (c.order.pushFront (k, v)).1 } (c.order.pushFront (k, v)).2) with
    | none => simp [hchk]
    | some c3 =>
      cases hp : c3.order.get (c.order.pushFront (k, v)).2 with
      | none => simp [hchk, hp]
      | some p => simp [hchk, hp]
  | some i =>
    cases hg : c.order.get i with
    | none => simp [hg]
    | some p =>
      cases hq : q p.2 with
      | true => simp [hq, LRUList.moveToFront_get, hg]
      | false =>
        have hset : ((c.order.set i (k, v)).1).get i = some (k, v) :=
          LRUList.set_get_self (by simp [hg]) _
        simp [hq, hf, LRUList.moveToFront_get, hg, hset]

theorem key_order_head {c : SizedCache K V} {i : Nat} {p : K × V}
    (h1 : c.order.order.head? = some i) (h2 : c.order.get i = some p) :
    (key_order c).head? = some p.1 := by
  cases horder : c.order.order with
  | nil =>
    rw [horder] at h1
    simp at h1
  | cons a rest =>
    rw [horder] at h1
    simp only [List.head?_cons, Option.some_inj] at h1
    subst h1
    unfold key_order iter_order LRUList.iter
    rw [horder, List.filterMap_cons]
    have h2' : c.order.slots.getD a none = some p := h2
    rw [h2']
    simp

end SizedCache

end CachedStore

namespace CachedStore

namespace SizedCache

variable {K V E : Type} [DecidableEq K]

theorem try_hit_valid {c : SizedCache K V} {k : K} {i : Nat} {f : Unit → Except E V}
    {q : V → Bool} {v : V} (hidx : c.get_index k = some i)
    (hg : c.order.get i = some (k, v)) (hq : q v = true) :
    try_get_or_set_with_if c k f q =
      some ({ c with order := c.order.moveToFront i, hits := c.hits + 1 },
        Except.ok (true, true, v)) := by
  simp [try_get_or_set_with_if, hidx, hg, hq, LRUList.moveToFront_get]

theorem cache_set_present_spec {c : SizedCache K V} {k : K} {i : Nat} {v : V}
    (hInv : Inv c) (hidx : c.get_index k = some i) :
    ∃ ov, c.order.get i = some (k, ov) ∧
      cache_set c k v =
        some ({ c with order := (c.order.set i (k, v)).1 }, some ov) := by
  obtain ⟨ov, hg⟩ := get_index_live hidx
  refine ⟨ov, hg, ?_⟩
  have hch : check_capacity ({ c with order := (c.order.set i (k, v)).1 } :
      SizedCache K V) = some { c with order := (c.order.set i (k, v)).1 } :=
    check_capacity_noop hInv.2.1
  have hold : (c.order.set i (k, v)).2 = some (k, ov) := hg
  simp [cache_set, hidx, hch, hold]

theorem cache_set_absent_spec {c : SizedCache K V} {k : K} {v : V}
    (hInv : Inv c) (habs : c.get_index k = none) :
    ∃ c3, cache_set c k v = some (c3, none) ∧ Inv c3 ∧
      c3.capacity = c.capacity ∧ c3.hits = c.hits ∧ c3.misses = c.misses ∧
      c3.order.get (c.order.pushFront (k, v)).2 = some (k, v) ∧
      (∃ rest, c3.order.order = (c.order.pushFront (k, v)).2 :: rest) ∧
      c3.store.length = min (c.store.length + 1) c.capacity ∧
      (c.store.length = c.capacity →
        ∃ t p, c.order.back = some t ∧ c.order.get t = some p ∧ t ∈ c.order.order ∧
          c3.store = (c.order.pushFront (k, v)).2 :: c.store.erase t ∧
          c3.order.order = (c.order.pushFront (k, v)).2 :: c.order.order.erase t ∧
          c3.order.get t = none ∧
          (∀ j, j ≠ t → j ≠ (c.order.pushFront (k, v)).2 →
            c3.order.get j = c.order.get j)) := by
  obtain ⟨c3, hchk, hI, hcap, hh, hm, hget, hrest, hlen, _, hfull⟩ :=
    insert_check_spec hInv habs (v := v)
  refine ⟨c3, ?_, hI, hcap, hh, hm, hget, hrest, hlen, hfull⟩
  simp [cache_set, habs, hchk]

theorem inv_cache_set {c : SizedCache K V} {k : K} {v : V}
    {out : SizedCache K V × Option V} (hInv : Inv c)
    (h : cache_set c k v = some out) : Inv out.1 := by
  cases hidx : c.get_index k with
  | some i =>
    obtain ⟨ov, hg, heq⟩ := cache_set_present_spec hInv hidx (v := v)
    rw [heq] at h
    injection h with h'
    rw [← h']
    exact inv_set_samekey hInv hg v
  | none =>
    obtain ⟨c3, heq, hI, _⟩ := cache_set_absent_spec hInv hidx (v := v)
    rw [heq] at h
    injection h with h'
    rw [← h']
    exact hI

theorem inv_get_if {c : SizedCache K V} {k : K} {q : V → Bool} (hInv : Inv c) :
    Inv (get_if c k q).1 := by
  cases hidx : c.get_index k with
  | none =>
    rw [get_if_absent hidx]
    exact inv_congr rfl rfl rfl hInv
  | some i =>
    obtain ⟨v, hg⟩ := get_index_live hidx
    cases hq : q v with
    | false =>
      rw [get_if_invalid hidx hg hq]
      exact inv_congr rfl rfl rfl hInv
    | true =>
      rw [get_if_hit hidx hg hq]
      have hio : i ∈ c.order.order := hInv.1.2.2.1 i (get_index_spec hidx).1
      exact inv_congr rfl rfl rfl (inv_moveToFront hInv hio)

theorem inv_upsert {c : SizedCache K V} {k : K} {f : Unit → V} {q : V → Bool}
    {out : SizedCache K V × Bool × Bool × V} (hInv : Inv c)
    (h : get_or_set_with_if c k f q = some out) : Inv out.1 := by
  cases hidx : c.get_index k with
  | some i =>
    obtain ⟨v, hg⟩ := get_index_live hidx
    have hio : i ∈ c.order.order := hInv.1.2.2.1 i (get_index_spec hidx).1
    cases hq : q v with
    | true =>
      rw [upsert_hit_valid hidx hg hq] at h
      injection h with h'
      rw [← h']
      exact inv_congr rfl rfl rfl (inv_moveToFront hInv hio)
    | false =>
      rw [upsert_hit_invalid hidx hg hq] at h
      injection h with h'
      rw [← h']
      have h1 : Inv ({ c with order := (c.order.set i (k, f ())).1 } :
          SizedCache K V) := inv_set_samekey hInv hg _
      have hio2 : i ∈ ({ c with order := (c.order.set i (k, f ())).1 } :
          SizedCache K V).order.order := by
        show i ∈ ((c.order.set i (k, f ())).1).order
        rw [LRUList.set_order]
        exact hio
      exact inv_congr rfl rfl rfl (inv_moveToFront h1 hio2)
  | none =>
    have hInv1 : Inv ({ c with misses := c.misses + 1 } : SizedCache K V) :=
      inv_congr rfl rfl rfl hInv
    have hidx1 : ({ c with misses := c.misses + 1 } : SizedCache K V).get_index k =
        none := hidx
    obtain ⟨c3, hchk, hI3, _, _, _, hget, _, _, _⟩ :=
      insert_check_spec hInv1 hidx1 (v := f ())
    have heq := upsert_miss (q := q) hidx hchk hget
    rw [heq] at h
    injection h with h'
    rw [← h']
    exact hI3

theorem inv_try {c : SizedCache K V} {k : K} {f : Unit → Except E V} {q : V → Bool}
    {out : SizedCache K V × Except E (Bool × Bool × V)} (hInv : Inv c)
    (h : try_get_or_set_with_if c k f q = some out) : Inv out.1 := by
  cases hf : f () with
  | error e =>
    cases hidx : c.get_index k with
    | none =>
      rw [try_error_absent hidx hf] at h
      injection h with h'
      rw [← h']
      exact inv_congr rfl rfl rfl hInv
    | some i =>
      obtain ⟨v, hg⟩ := get_index_live hidx
      have hio : i ∈ c.order.order := hInv.1.2.2.1 i (get_index_spec hidx).1
      cases hq : q v with
      | false =>
        rw [try_error_present_invalid hidx hg hq hf] at h
        injection h with h'
        rw [← h']
        exact inv_congr rfl rfl rfl hInv
      | true =>
        rw [try_hit_valid hidx hg hq] at h
        injection h with h'
        rw [← h']
        exact inv_congr rfl rfl rfl (inv_moveToFront hInv hio)
  | ok v0 =>
    rw [try_ok_eq hf] at h
    cases hg : get_or_set_with_if c k (fun _ => v0) q with
    | none =>
      rw [hg] at h
      simp at h
    | some y =>
      rw [hg] at h
      simp only [Option.map_some'] at h
      injection h with h'
      rw [← h']
      exact inv_upsert hInv hg

theorem inv_remove {c : SizedCache K V} {k : K} (hInv : Inv c) :
    Inv (cache_remove c k).1 := by
  cases hidx : c.get_index k with
  | none =>
    simp only [cache_remove, remove_index, hidx]
    exact hInv
  | some i =>
    have hio : i ∈ c.order.order := hInv.1.2.2.1 i (get_index_spec hidx).1
    have his : i ∈ c.store := (get_index_spec hidx).1
    simp only [cache_remove, remove_index, hidx]
    refine ⟨preInv_evict hInv.1 hio, ?_, hInv.2.2⟩
    have hlen : (c.store.erase i).length = c.store.length - 1 :=
      List.length_erase_of_mem his
    show (c.store.erase i).length ≤ c.capacity
    have := hInv.2.1
    omega

theorem inv_clear {c : SizedCache K V} (hInv : Inv c) : Inv (cache_clear c) := by
  refine ⟨⟨List.nodup_nil, List.nodup_nil, ?_, ?_, ?_, ?_⟩, ?_, hInv.2.2⟩
  · intro i hi
    simp [cache_clear] at hi
  · intro i hi
    simp [cache_clear, LRUList.clear] at hi
  · intro i hi
    simp [cache_clear, LRUList.clear] at hi
  · intro i hi
    simp [cache_clear, LRUList.clear] at hi
  · show ([] : List Nat).length ≤ c.capacity
    simp

theorem inv_reset_metrics {c : SizedCache K V} (hInv : Inv c) :
    Inv (cache_reset_metrics c) :=
  inv_congr rfl rfl rfl hInv

theorem inv_with_size {n : Nat} {c : SizedCache K V} (h : with_size n = some c) :
    Inv c := by
  unfold with_size at h
  by_cases hn : n = 0
  · rw [if_pos hn] at h
    exact absurd h (by simp)
  · rw [if_neg hn] at h
    injection h with h'
    rw [← h']
    refine ⟨⟨List.nodup_nil, List.nodup_nil, ?_, ?_, ?_, ?_⟩, ?_, ?_⟩
    · intro i hi
      simp at hi
    · intro i hi
      simp [LRUList.withCapacity] at hi
    · intro i hi
      simp [LRUList.withCapacity] at hi
    · intro i hi
      simp [LRUList.withCapacity] at hi
    · show ([] : List Nat).length ≤ n
      simp
    · exact Nat.pos_of_ne_zero hn

theorem reachable_inv {c : SizedCache K V} (h : Reachable c) : Inv c := by
  induction h with
  | init n c hc => exact inv_with_size hc
  | set c k v out _ hs ih => exact inv_cache_set ih hs
  | get c k q out _ hg ih =>
    rw [← hg]
    exact inv_get_if ih
  | getMut c k q out _ hg ih =>
    rw [← hg, get_mut_if_eq_get_if]
    exact inv_get_if ih
  | upsert c k f q out _ hu ih => exact inv_upsert ih hu
  | tryUpsert c k f q out _ ht ih => exact inv_try ih ht
  | remove c k out _ hr ih =>
    rw [← hr]
    exact inv_remove ih
  | clear c _ ih => exact inv_clear ih
  | resetMetrics c _ ih => exact inv_reset_metrics ih

end SizedCache

end CachedStore

/-! ## Equality characterisation and recency helpers -/

namespace CachedStore

namespace SizedCache

variable {K V E : Type} [DecidableEq K]

theorem lookupVal_eq_some {c : SizedCache K V} {k : K} {w : V} :
    lookupVal c k = some w ↔
      ∃ i, c.get_index k = some i ∧ c.order.get i = some (k, w) := by
  unfold lookupVal
  cases hidx : c.get_index k with
  | none => simp
  | some i =>
    obtain ⟨v, hg⟩ := get_index_live hidx
    simp only [Option.some_bind, hg, Option.map_some', Option.some_inj]
    constructor
    · rintro rfl
      exact ⟨i, rfl, hg⟩
    · rintro ⟨j, hj, hgj⟩
      subst hj
      rw [hg] at hgj
      exact ((Prod.mk.injEq _ _ _ _).mp (Option.some_inj.mp hgj)).2

theorem iter_mem_iff {c : SizedCache K V} (hInv : Inv c) {k : K} {w : V} :
    (k, w) ∈ c.order.iter ↔ lookupVal c k = some w := by
  rw [LRUList.iter_eq, List.mem_filterMap]
  constructor
  · rintro ⟨i, hio, hget⟩
    have his : i ∈ c.store := hInv.1.2.2.2.1 i hio
    have hkA : c.keyAt i = some k := by
      unfold keyAt
      rw [hget]
      rfl
    obtain ⟨j, hj⟩ := get_index_of_mem his hkA
    have hjmem := (get_index_spec hj).1
    have hjk := (get_index_spec hj).2
    have hji : j = i :=
      hInv.1.2.2.2.2.2 j (hInv.1.2.2.1 j hjmem) i hio (by rw [hjk, hkA])
    rw [hji] at hj
    exact lookupVal_eq_some.mpr ⟨i, hj, hget⟩
  · intro h
    obtain ⟨i, hj, hget⟩ := lookupVal_eq_some.mp h
    exact ⟨i, hInv.1.2.2.1 i (get_index_spec hj).1, hget⟩

theorem found_iff {b : SizedCache K V} [DecidableEq V] (p : K × V) :
    (match b.get_index p.1 with
      | some i =>
        match b.order.get i with
        | some q => p.2 == q.2
        | none => false
      | none => false) = true ↔ lookupVal b p.1 = some p.2 := by
  cases hidx : b.get_index p.1 with
  | none => simp [lookupVal, hidx]
  | some i =>
    obtain ⟨v, hg⟩ := get_index_live hidx
    simp only [lookupVal, hidx, Option.some_bind, hg, Option.map_some',
      Option.some_inj, beq_iff_eq]
    exact eq_comm

theorem cache_eq_iff [DecidableEq V] {a b : SizedCache K V} (ha : Inv a) :
    cache_eq a b = true ↔
      (cache_size a = cache_size b ∧
        ∀ k w, lookupVal a k = some w → lookupVal b k = some w) := by
  unfold cache_eq
  rw [Bool.and_eq_true, List.all_eq_true, beq_iff_eq]
  constructor
  · rintro ⟨hlen, hall⟩
    refine ⟨hlen, ?_⟩
    intro k w hk
    have hmem : (k, w) ∈ a.order.iter := (iter_mem_iff ha).mpr hk
    have := hall (k, w) hmem
    rwa [found_iff (k, w)] at this
  · rintro ⟨hlen, himp⟩
    refine ⟨hlen, ?_⟩
    intro p hp
    obtain ⟨p1, p2⟩ := p
    rw [found_iff (p1, p2)]
    exact himp p1 p2 ((iter_mem_iff ha).mp hp)

theorem cache_eq_ext [DecidableEq V] {a b a' b' : SizedCache K V}
    (ha : Inv a) (ha' : Inv a')
    (hsa : cache_size a' = cache_size a)
    (hla : ∀ k, lookupVal a' k = lookupVal a k)
    (hsb : cache_size b' = cache_size b)
    (hlb : ∀ k, lookupVal b' k = lookupVal b k) :
    cache_eq a' b' = cache_eq a b := by
  rw [Bool.eq_iff_iff, cache_eq_iff ha', cache_eq_iff ha]
  constructor
  · rintro ⟨h1, h2⟩
    refine ⟨by omega, ?_⟩
    intro k w hk
    have := h2 k w (by rw [hla]; exact hk)
    rwa [hlb] at this
  · rintro ⟨h1, h2⟩
    refine ⟨by omega, ?_⟩
    intro k w hk
    rw [hlb]
    refine h2 k w ?_
    rw [← hla]
    exact hk

theorem key_order_eq_filterMap (c : SizedCache K V) :
    key_order c = c.order.order.filterMap fun j => c.keyAt j := by
  unfold key_order iter_order LRUList.iter keyAt LRUList.get
  rw [List.map_filterMap]

end SizedCache

end CachedStore

/-! ## Claim theorems -/

namespace CachedStore

namespace SizedCache

variable {K V E : Type} [DecidableEq K]

/-- C1: re-inserting an already-present key via `cache_set` replaces the
value in the existing slot: the hash index and the recency list are
unchanged (so the live count does not increase and no second slot for the
key appears), every other slot is untouched, and the one-entry-per-live-key
invariant is preserved, so a later eviction cannot drop an unrelated live
key because of a duplicate. -/
theorem set_present_no_new_slot {c : SizedCache K V} {k : K} {i : Nat} {v : V}
    (hInv : Inv c) (hidx : c.get_index k = some i) :
    ∃ c' ov, cache_set c k v = some (c', some ov) ∧
      c.order.get i = some (k, ov) ∧
      cache_size c' = cache_size c ∧
      c'.store = c.store ∧
      c'.order.order = c.order.order ∧
      c'.order.get i = some (k, v) ∧
      (∀ j, j ≠ i → c'.order.get j = c.order.get j) ∧
      Inv c' := by
  obtain ⟨ov, hg, heq⟩ := cache_set_present_spec hInv hidx (v := v)
  refine ⟨{ c with order := (c.order.set i (k, v)).1 }, ov, heq, hg, rfl, rfl,
    ?_, ?_, ?_, ?_⟩
  · exact LRUList.set_order c.order i (k, v)
  · show ((c.order.set i (k, v)).1).get i = some (k, v)
    exact LRUList.set_get_self (by simp [hg]) _
  · intro j hj
    exact LRUList.set_get_ne c.order hj (k, v)
  · exact inv_set_samekey hInv hg v

/-- C1 witness: applying the theorem to the concrete store `wc1`. -/
theorem set_present_no_new_slot_witness :
    Inv wc1 ∧ wc1.get_index 1 = some 0 ∧
      (∃ c' ov, cache_set wc1 1 99 = some (c', some ov) ∧
        wc1.order.get 0 = some (1, ov) ∧
        cache_size c' = cache_size wc1 ∧
        c'.store = wc1.store ∧
        c'.order.order = wc1.order.order ∧
        c'.order.get 0 = some (1, 99) ∧
        (∀ j, j ≠ 0 → c'.order.get j = wc1.order.get j) ∧
        Inv c') :=
  ⟨by decide, by decide, set_present_no_new_slot (by decide) (by decide)⟩

/-- C2: along every operation sequence from a freshly constructed store the
live count stays at or below the capacity; a `cache_set` that updates a
present key evicts nothing (same live count, same index, same recency
list), and a `cache_set` of an absent key yields a live count of
`min (size + 1) capacity`, so the eviction check removes at most what the
bound requires. -/
theorem reachable_size_le_capacity {c : SizedCache K V} (h : Reachable c) :
    cache_size c ≤ c.capacity ∧
    (∀ (k : K) (v : V) i out, c.get_index k = some i →
      cache_set c k v = some out →
      cache_size out.1 = cache_size c ∧ out.1.order.order = c.order.order ∧
      out.1.store = c.store) ∧
    (∀ (k : K) (v : V) out, c.get_index k = none →
      cache_set c k v = some out →
      cache_size out.1 = min (cache_size c + 1) c.capacity) := by
  have hInv := reachable_inv h
  refine ⟨hInv.2.1, ?_, ?_⟩
  · intro k v i out hidx hset
    obtain ⟨ov, _, heq⟩ := cache_set_present_spec hInv hidx (v := v)
    rw [heq] at hset
    injection hset with h'
    rw [← h']
    exact ⟨rfl, LRUList.set_order c.order i (k, v), rfl⟩
  · intro k v out habs hset
    obtain ⟨c3, heq, _, _, _, _, _, _, hlen, _⟩ :=
      cache_set_absent_spec hInv habs (v := v)
    rw [heq] at hset
    injection hset with h'
    rw [← h']
    exact hlen

/-- C2 witness: applying the theorem to a store reached by construction and
one insert. -/
theorem reachable_size_le_capacity_witness :
    cache_size wc1 ≤ wc1.capacity ∧
    (∀ (k : Nat) (v : Nat) i out, wc1.get_index k = some i →
      cache_set wc1 k v = some out →
      cache_size out.1 = cache_size wc1 ∧ out.1.order.order = wc1.order.order ∧
      out.1.store = wc1.store) ∧
    (∀ (k : Nat) (v : Nat) out, wc1.get_index k = none →
      cache_set wc1 k v = some out →
      cache_size out.1 = min (cache_size wc1 + 1) wc1.capacity) :=
  reachable_size_le_capacity
    (Reachable.set wc0 1 10 (wc1, none)
      (Reachable.init 2 wc0 (by decide)) (by decide))

/-- C3: when a `cache_set` of an absent key overflows a full store, the
evicted key is exactly the current least-recently-touched one (the tail of
the recency order): its index entry, recency-list entry and slot are all
removed, its key no longer resolves, every other live handle survives with
its slot intact, and the live count returns to the capacity. -/
theorem overflow_evicts_lru_tail {c : SizedCache K V} {k : K} {v : V}
    (hInv : Inv c) (habs : c.get_index k = none)
    (hfull : cache_size c = c.capacity) :
    ∃ t p c', c.order.back = some t ∧ c.order.get t = some p ∧
      cache_set c k v = some (c', none) ∧
      t ∉ c'.store ∧ t ∉ c'.order.order ∧ c'.order.get t = none ∧
      c'.get_index p.1 = none ∧
      (∀ j ∈ c.order.order, j ≠ t →
        j ∈ c'.order.order ∧ c'.order.get j = c.order.get j) ∧
      cache_size c' = c.capacity := by
  obtain ⟨c3, heq, hI3, hcap, _, _, hget, _, hlen, hfull'⟩ :=
    cache_set_absent_spec hInv habs (v := v)
  obtain ⟨t, p, hback, hgt, htmem, hst, hoo, hgtnone, hother⟩ := hfull' hfull
  have hfresh : c.order.get (c.order.pushFront (k, v)).2 = none :=
    LRUList.pushFront_fresh c.order (k, v)
  have hnotmem : (c.order.pushFront (k, v)).2 ∉ c.order.order := fun hmem =>
    hInv.1.2.2.2.2.1 _ hmem hfresh
  have htne : t ≠ (c.order.pushFront (k, v)).2 := fun h0 => hnotmem (h0 ▸ htmem)
  have htstore : t ∈ c.store := hInv.1.2.2.2.1 t htmem
  have hkt : c.keyAt t = some p.1 := by
    unfold keyAt
    rw [hgt]
    rfl
  refine ⟨t, p, c3, hback, hgt, heq, ?_, ?_, hgtnone, ?_, ?_, ?_⟩
  · rw [hst]
    intro hmem
    rcases List.mem_cons.mp hmem with h0 | h0
    · exact htne h0
    · exact absurd ((hInv.1.1.mem_erase_iff).mp h0).1 (by simp)
  · rw [hoo]
    intro hmem
    rcases List.mem_cons.mp hmem with h0 | h0
    · exact htne h0
    · exact absurd ((hInv.1.2.1.mem_erase_iff).mp h0).1 (by simp)
  · unfold get_index
    rw [List.find?_eq_none]
    intro j hj
    rw [hst] at hj
    simp only [decide_eq_true_eq]
    intro hkey
    rcases List.mem_cons.mp hj with h0 | h0
    · subst h0
      have hk3 : c3.keyAt (c.order.pushFront (k, v)).2 = some k := by
        unfold keyAt
        rw [hget]
        rfl
      rw [hk3] at hkey
      have hkp : k = p.1 := Option.some_inj.mp hkey
      have hne := get_index_none_spec habs t htstore
      rw [hkt] at hne
      exact hne (congrArg some hkp.symm)
    · obtain ⟨hjt, hjs⟩ := (hInv.1.1.mem_erase_iff).mp h0
      have hjo : j ∈ c.order.order := hInv.1.2.2.1 j hjs
      have hjf : j ≠ (c.order.pushFront (k, v)).2 := fun h1 => hnotmem (h1 ▸ hjo)
      have hkeq : c3.keyAt j = c.keyAt j := by
        unfold keyAt
        rw [hother j hjt hjf]
      rw [hkeq] at hkey
      exact hjt (hInv.1.2.2.2.2.2 j hjo t htmem (by rw [hkey, hkt]))
  · intro j hjo hjt
    have hjf : j ≠ (c.order.pushFront (k, v)).2 := fun h1 => hnotmem (h1 ▸ hjo)
    constructor
    · rw [hoo]
      exact List.mem_cons_of_mem _ ((List.mem_erase_of_ne hjt).mpr hjo)
    · exact hother j hjt hjf
  · show c3.store.length = c.capacity
    have hfc : c.store.length = c.capacity := hfull
    omega

/-- C3 witness: applying the theorem to the full concrete store `wc2`. -/
theorem overflow_evicts_lru_tail_witness :
    Inv wc2 ∧ wc2.get_index 3 = none ∧ cache_size wc2 = wc2.capacity ∧
      (∃ t p c', wc2.order.back = some t ∧ wc2.order.get t = some p ∧
        cache_set wc2 3 30 = some (c', none) ∧
        t ∉ c'.store ∧ t ∉ c'.order.order ∧ c'.order.get t = none ∧
        c'.get_index p.1 = none ∧
        (∀ j ∈ wc2.order.order, j ≠ t →
          j ∈ c'.order.order ∧ c'.order.get j = wc2.order.get j) ∧
        cache_size c' = wc2.capacity) :=
  ⟨by decide, by decide, by decide,
    overflow_evicts_lru_tail (by decide) (by decide) (by decide)⟩

end SizedCache

end CachedStore


namespace CachedStore

namespace SizedCache

variable {K V E : Type} [DecidableEq K]

/-- C4 counterexample: build the store `wc4` by real operations, observe key
1 present, then `cache_set 1 11`: the key order stays `[2, 1]` with front
key 2, so a set of a present key does NOT make it front-most. -/
theorem set_present_not_front_counterexample :
    ((with_size 3 : Option (SizedCache Nat Nat)).bind fun c0 =>
      (cache_set c0 1 10).bind fun x1 =>
      (cache_set x1.1 2 20).map fun x2 => x2.1) = some wc4 ∧
    (wc4.get_index 1).isSome = true ∧
    (cache_set wc4 1 11).map (fun x => key_order x.1) = some [2, 1] ∧
    (cache_set wc4 1 11).map (fun x => (key_order x.1).head?) = some (some 2) := by
  decide

/-- C4 amended: after a `cache_get` hit the key is front-most in recency
order, and after a `cache_set` of an absent key the key is front-most; but a
`cache_set` of a present key replaces the value in place and leaves the
recency order of keys unchanged (the slot is not moved to the front). -/
theorem recency_after_get_and_set {c : SizedCache K V} {k : K} {v : V}
    (hInv : Inv c) :
    (∀ w, (cache_get c k).2 = some w →
      (key_order (cache_get c k).1).head? = some k) ∧
    (c.get_index k = none → ∀ out, cache_set c k v = some out →
      (key_order out.1).head? = some k) ∧
    (∀ i, c.get_index k = some i → ∀ out, cache_set c k v = some out →
      key_order out.1 = key_order c) := by
  refine ⟨?_, ?_, ?_⟩
  · intro w hw
    cases hidx : c.get_index k with
    | none =>
      unfold cache_get at hw
      rw [get_if_absent hidx] at hw
      simp at hw
    | some i =>
      obtain ⟨v0, hg⟩ := get_index_live hidx
      have heq : cache_get c k =
          ({ c with order := c.order.moveToFront i, hits := c.hits + 1 },
            some v0) := get_if_hit hidx hg rfl
      rw [heq]
      apply key_order_head (i := i) (p := (k, v0))
      · show (c.order.moveToFront i).order.head? = some i
        rw [LRUList.moveToFront_order]
        rfl
      · show (c.order.moveToFront i).get i = some (k, v0)
        rw [LRUList.moveToFront_get]
        exact hg
  · intro habs out hset
    obtain ⟨c3, heq, _, _, _, _, hget, ⟨rest, horder⟩, _, _⟩ :=
      cache_set_absent_spec hInv habs (v := v)
    rw [heq] at hset
    injection hset with h'
    rw [← h']
    apply key_order_head (i := (c.order.pushFront (k, v)).2) (p := (k, v))
    · rw [horder]
      rfl
    · exact hget
  · intro i hidx out hset
    obtain ⟨ov, hg, heq⟩ := cache_set_present_spec hInv hidx (v := v)
    rw [heq] at hset
    injection hset with h'
    rw [← h']
    rw [key_order_eq_filterMap, key_order_eq_filterMap]
    show ((c.order.set i (k, v)).1).order.filterMap _ = _
    rw [LRUList.set_order]
    exact List.filterMap_congr fun j _ => keyAt_set_samekey hg v j

/-- C4 amended witness: applying the theorem to the concrete store `wc4`. -/
theorem recency_after_get_and_set_witness :
    Inv wc4 ∧
      ((∀ w, (cache_get wc4 1).2 = some w →
        (key_order (cache_get wc4 1).1).head? = some 1) ∧
      (wc4.get_index 1 = none → ∀ out, cache_set wc4 1 11 = some out →
        (key_order out.1).head? = some 1) ∧
      (∀ i, wc4.get_index 1 = some i → ∀ out, cache_set wc4 1 11 = some out →
        key_order out.1 = key_order wc4)) :=
  ⟨by decide, recency_after_get_and_set (by decide)⟩

/-- C5 counterexample: on a present key whose value fails the validity
predicate, `get_or_set_with_if` increments the hit counter and leaves the
miss counter unchanged — the opposite of the claim — while invoking the
supplier, replacing the value and moving the slot to the front. -/
theorem invalid_hit_counts_as_hit_counterexample :
    ((with_size 3 : Option (SizedCache Nat Nat)).bind fun c0 =>
      (cache_set c0 1 10).bind fun x1 =>
      (get_or_set_with_if x1.1 1 (fun _ => 42) fun w => decide (w = 99)).map
        fun y => (y.1.hits, y.1.misses, y.2.1, y.2.2.1, y.2.2.2,
          key_order y.1, value_order y.1)) =
      some (1, 0, true, false, 42, [1], [42]) := rfl

/-- C5 amended: on a present key whose stored value fails the validity
predicate, `get_or_set_with_if` invokes the supplier, replaces the value in
the same slot, moves the slot to the front and reports
`(was_present, was_valid) = (true, false)` — but it counts the call as a
HIT: the hit counter increases and the miss counter does not. -/
theorem upsert_invalid_refresh {c : SizedCache K V} {k : K} {i : Nat} {v : V}
    {f : Unit → V} {q : V → Bool} (hidx : c.get_index k = some i)
    (hg : c.order.get i = some (k, v)) (hq : q v = false) :
    ∃ c', get_or_set_with_if c k f q = some (c', true, false, f ()) ∧
      c'.hits = c.hits + 1 ∧ c'.misses = c.misses ∧
      c'.store = c.store ∧
      c'.order.get i = some (k, f ()) ∧
      (key_order c').head? = some k := by
  refine ⟨_, upsert_hit_invalid hidx hg hq, rfl, rfl, rfl, ?_, ?_⟩
  · show (((c.order.set i (k, f ())).1).moveToFront i).get i = some (k, f ())
    rw [LRUList.moveToFront_get]
    exact LRUList.set_get_self (by simp [hg]) _
  · apply key_order_head (i := i) (p := (k, f ()))
    · show (((c.order.set i (k, f ())).1).moveToFront i).order.head? = some i
      rw [LRUList.moveToFront_order]
      rfl
    · show (((c.order.set i (k, f ())).1).moveToFront i).get i = some (k, f ())
      rw [LRUList.moveToFront_get]
      exact LRUList.set_get_self (by simp [hg]) _

/-- C5 amended witness: applying the theorem to the concrete store `wc1`
with a predicate its stored value fails. -/
theorem upsert_invalid_refresh_witness :
    wc1.get_index 1 = some 0 ∧ wc1.order.get 0 = some (1, 10) ∧
      decide ((10 : Nat) = 99) = false ∧
      (∃ c', get_or_set_with_if wc1 1 (fun _ => 42)
          (fun w => decide (w = 99)) = some (c', true, false, 42) ∧
        c'.hits = wc1.hits + 1 ∧ c'.misses = wc1.misses ∧
        c'.store = wc1.store ∧
        c'.order.get 0 = some (1, 42) ∧
        (key_order c').head? = some 1) :=
  ⟨by decide, by decide, by decide,
    upsert_invalid_refresh (v := 10) (by decide) (by decide) (by decide)⟩

end SizedCache

end CachedStore

namespace CachedStore

namespace SizedCache

variable {K V E : Type} [DecidableEq K]

/-- C6 counterexample: a failing supplier propagates its error, but the
store is NOT left exactly as it was: on an empty store the miss counter goes
from 0 to 1, so the post-state differs from the pre-state. -/
theorem try_error_mutates_counters_counterexample :
    ((with_size 1 : Option (SizedCache Nat Nat)).bind fun c =>
      (try_get_or_set_with_if (E := Nat) c 5 (fun _ => Except.error 7)
          fun _ => true).map fun x =>
        ((match x.2 with
          | Except.error e => some e
          | Except.ok _ => none), decide (x.1 = c), x.1.misses, c.misses)) =
      some (some 7, false, 1, 0) := rfl

/-- C6 amended: when the supplier of `try_get_or_set_with_if` (and of its
async variant, which differs only by awaiting) fails, the error is
propagated unchanged and no structural mutation is committed — the index,
the arena (so entries, values and recency order) and the capacity are
exactly those of the pre-state; the only change is the counter bump: the
miss counter on an absent key, the hit counter on a present-but-invalid
key. -/
theorem try_error_no_structural_change {c : SizedCache K V} {k : K}
    {f : Unit → Except E V} {q : V → Bool} {e : E}
    (hf : f () = Except.error e) :
    (c.get_index k = none →
      try_get_or_set_with_if c k f q =
        some ({ c with misses := c.misses + 1 }, Except.error e) ∧
      try_get_or_set_with_if_async c k f q =
        some ({ c with misses := c.misses + 1 }, Except.error e)) ∧
    (∀ i v, c.get_index k = some i → c.order.get i = some (k, v) →
      q v = false →
      try_get_or_set_with_if c k f q =
        some ({ c with hits := c.hits + 1 }, Except.error e) ∧
      try_get_or_set_with_if_async c k f q =
        some ({ c with hits := c.hits + 1 }, Except.error e)) := by
  constructor
  · intro habs
    exact ⟨try_error_absent habs hf, try_error_absent habs hf⟩
  · intro i v hidx hg hq
    exact ⟨try_error_present_invalid hidx hg hq hf,
      try_error_present_invalid hidx hg hq hf⟩

/-- C6 amended witness: applying the theorem to the concrete store `wc1`
with a supplier that always fails. -/
theorem try_error_no_structural_change_witness :
    ((fun _ => Except.error 5 : Unit → Except Nat Nat) () = Except.error 5) ∧
    ((wc1.get_index 1 = none →
      try_get_or_set_with_if wc1 1 (fun _ => Except.error 5)
          (fun w => decide (w = 99)) =
        some ({ wc1 with misses := wc1.misses + 1 }, Except.error 5) ∧
      try_get_or_set_with_if_async wc1 1 (fun _ => Except.error 5)
          (fun w => decide (w = 99)) =
        some ({ wc1 with misses := wc1.misses + 1 }, Except.error 5)) ∧
    (∀ i v, wc1.get_index 1 = some i → wc1.order.get i = some (1, v) →
      decide (v = 99) = false →
      try_get_or_set_with_if wc1 1 (fun _ => Except.error 5)
          (fun w => decide (w = 99)) =
        some ({ wc1 with hits := wc1.hits + 1 }, Except.error 5) ∧
      try_get_or_set_with_if_async wc1 1 (fun _ => Except.error 5)
          (fun w => decide (w = 99)) =
        some ({ wc1 with hits := wc1.hits + 1 }, Except.error 5))) :=
  ⟨rfl, try_error_no_structural_change rfl⟩

/-- C9: a `try_get_or_set_with_if` call whose supplier fails still updates
the metrics before the failure: the miss counter is incremented on an
absent key, the hit counter on a present-but-invalid key, while the live
count is unchanged. -/
theorem try_error_updates_metrics {c : SizedCache K V} {k : K}
    {f : Unit → Except E V} {q : V → Bool} {e : E}
    (hf : f () = Except.error e) :
    (c.get_index k = none → ∃ c',
      try_get_or_set_with_if c k f q = some (c', Except.error e) ∧
      c'.misses = c.misses + 1 ∧ c'.hits = c.hits ∧
      cache_size c' = cache_size c) ∧
    (∀ i v, c.get_index k = some i → c.order.get i = some (k, v) →
      q v = false → ∃ c',
      try_get_or_set_with_if c k f q = some (c', Except.error e) ∧
      c'.hits = c.hits + 1 ∧ c'.misses = c.misses ∧
      cache_size c' = cache_size c) := by
  constructor
  · intro habs
    exact ⟨_, try_error_absent habs hf, rfl, rfl, rfl⟩
  · intro i v hidx hg hq
    exact ⟨_, try_error_present_invalid hidx hg hq hf, rfl, rfl, rfl⟩

/-- C9 witness: applying the theorem to the concrete full store `wc2` with a
supplier that always fails and a predicate the stored value fails. -/
theorem try_error_updates_metrics_witness :
    ((fun _ => Except.error 9 : Unit → Except Nat Nat) () = Except.error 9) ∧
    ((wc2.get_index 2 = none → ∃ c',
      try_get_or_set_with_if wc2 2 (fun _ => Except.error 9)
          (fun w => decide (w = 0)) = some (c', Except.error 9) ∧
      c'.misses = wc2.misses + 1 ∧ c'.hits = wc2.hits ∧
      cache_size c' = cache_size wc2) ∧
    (∀ i v, wc2.get_index 2 = some i → wc2.order.get i = some (2, v) →
      decide (v = 0) = false → ∃ c',
      try_get_or_set_with_if wc2 2 (fun _ => Except.error 9)
          (fun w => decide (w = 0)) = some (c', Except.error 9) ∧
      c'.hits = wc2.hits + 1 ∧ c'.misses = wc2.misses ∧
      cache_size c' = cache_size wc2)) :=
  ⟨rfl, try_error_updates_metrics rfl⟩

/-- C10: a validity-predicate lookup whose stored value fails the predicate
returns none and bumps only the miss counter: the result state is the input
state with `misses + 1`, so the entry stays, no reorder happens, and the
hit counter is untouched; `get_mut_if` behaves identically. -/
theorem invalid_lookup_miss_frame {c : SizedCache K V} {k : K} {i : Nat}
    {v : V} {q : V → Bool} (hidx : c.get_index k = some i)
    (hg : c.order.get i = some (k, v)) (hq : q v = false) :
    get_if c k q = ({ c with misses := c.misses + 1 }, none) ∧
    get_mut_if c k q = ({ c with misses := c.misses + 1 }, none) :=
  ⟨get_if_invalid hidx hg hq, by
    rw [get_mut_if_eq_get_if]
    exact get_if_invalid hidx hg hq⟩

/-- C10 witness: applying the theorem to the concrete store `wc1` with a
predicate its stored value fails. -/
theorem invalid_lookup_miss_frame_witness :
    wc1.get_index 1 = some 0 ∧ wc1.order.get 0 = some (1, 10) ∧
      decide ((10 : Nat) = 0) = false ∧
      (get_if wc1 1 (fun w => decide (w = 0)) =
        ({ wc1 with misses := wc1.misses + 1 }, none) ∧
      get_mut_if wc1 1 (fun w => decide (w = 0)) =
        ({ wc1 with misses := wc1.misses + 1 }, none)) :=
  ⟨by decide, by decide, by decide,
    invalid_lookup_miss_frame (i := 0) (v := 10) (by decide) (by decide)
      (by decide)⟩

end SizedCache

end CachedStore

namespace CachedStore

namespace SizedCache

variable {K V E : Type} [DecidableEq K]

/-- C7: two stores compare equal exactly when they have equal live counts
and every (key, value) pair of the first is found with an equal value in
the second (key-based lookup); the comparison ignores the capacities the
stores were built with and is unchanged when either store's recency order
is permuted by `moveToFront` — it depends only on sizes and key-value
lookup. -/
theorem cache_eq_characterisation [DecidableEq V] {a b : SizedCache K V}
    (ha : Inv a) :
    (cache_eq a b = true ↔
      (cache_size a = cache_size b ∧
        ∀ k w, lookupVal a k = some w → lookupVal b k = some w)) ∧
    (∀ n m, cache_eq { a with capacity := n } { b with capacity := m } =
      cache_eq a b) ∧
    (∀ i, i ∈ a.order.order →
      cache_eq { a with order := a.order.moveToFront i } b = cache_eq a b) ∧
    (∀ i, i ∈ b.order.order →
      cache_eq a { b with order := b.order.moveToFront i } = cache_eq a b) := by
  refine ⟨cache_eq_iff ha, ?_, ?_, ?_⟩
  · intro n m
    rfl
  · intro i hi
    exact cache_eq_ext ha (inv_moveToFront ha hi) rfl (fun _ => rfl) rfl
      (fun _ => rfl)
  · intro i hi
    exact cache_eq_ext ha ha rfl (fun _ => rfl) rfl (fun _ => rfl)

/-- C7 witness: two concrete stores with the same entries but different
capacities, recency orders and handle layouts; they compare equal. -/
theorem cache_eq_characterisation_witness :
    Inv wc7a ∧
      ((cache_eq wc7a wc7b = true ↔
        (cache_size wc7a = cache_size wc7b ∧
          ∀ k w, lookupVal wc7a k = some w → lookupVal wc7b k = some w)) ∧
      (∀ n m, cache_eq { wc7a with capacity := n } { wc7b with capacity := m } =
        cache_eq wc7a wc7b) ∧
      (∀ i, i ∈ wc7a.order.order →
        cache_eq { wc7a with order := wc7a.order.moveToFront i } wc7b =
          cache_eq wc7a wc7b) ∧
      (∀ i, i ∈ wc7b.order.order →
        cache_eq wc7a { wc7b with order := wc7b.order.moveToFront i } =
          cache_eq wc7a wc7b)) ∧
      cache_eq wc7a wc7b = true :=
  ⟨by decide, cache_eq_characterisation (by decide), by decide⟩

/-- C8: `with_size 0` fails fatally (modelled as `none`) and
`try_with_size 0` returns the invalid-argument error EINVAL (raw OS error
22); for every positive capacity both constructors yield the same store
with that capacity, zero hits, zero misses and no entries. -/
theorem construction_capacity_contract (n : Nat) (hn : 0 < n) :
    (with_size 0 : Option (SizedCache K V)) = none ∧
    (try_with_size 0 : Except Nat (SizedCache K V)) = Except.error 22 ∧
    ∃ c : SizedCache K V, with_size n = some c ∧
      try_with_size n = Except.ok c ∧
      c.capacity = n ∧ c.hits = 0 ∧ c.misses = 0 ∧ cache_size c = 0 := by
  have hne : n ≠ 0 := Nat.pos_iff_ne_zero.mp hn
  refine ⟨by simp [with_size], by simp [try_with_size],
    { store := [], order := LRUList.withCapacity n, capacity := n,
      hits := 0, misses := 0 }, ?_, ?_, rfl, rfl, rfl, rfl⟩
  · unfold with_size
    rw [if_neg hne]
  · unfold try_with_size
    rw [if_neg hne]

/-- C8 witness: applying the theorem at capacity 3 over Nat keys and
values. -/
theorem construction_capacity_contract_witness :
    0 < 3 ∧
      ((with_size 0 : Option (SizedCache Nat Nat)) = none ∧
      (try_with_size 0 : Except Nat (SizedCache Nat Nat)) = Except.error 22 ∧
      ∃ c : SizedCache Nat Nat, with_size 3 = some c ∧
        try_with_size 3 = Except.ok c ∧
        c.capacity = 3 ∧ c.hits = 0 ∧ c.misses = 0 ∧ cache_size c = 0) :=
  ⟨by decide, construction_capacity_contract 3 (by decide)⟩

end SizedCache

end CachedStore
